import Mathlib

/-!
Verification development for the worship-bulletin PPT generator
(`streamlit_app.py`).

The program's logic is embedded shallowly:

* Python strings are sequences of Unicode code points, modelled as `List Char`
  (`Str`).  `str.replace`, the substring test `in`, `str.strip` and decimal
  rendering of integers are implemented over this model with Python's
  semantics (left-to-right, non-overlapping replacement of all occurrences).
* The slide deck is modelled structurally: slides contain shapes, shapes
  contain paragraphs, paragraphs contain runs; a run carries its text and an
  opaque formatting payload.  `fill_ppt_text` is the token-substitution pass
  of lines 92-121 of the source.
* `analyze_jubo_deep` (lines 61-90) interacts with an external AI service,
  the filesystem, and `json.loads`; those effects are modelled by an
  environment record `ExtEnv` describing the outcome of each external step
  (the upload, the generation call, and JSON parsing of the stripped reply),
  and the function returns its result together with whether the `except`
  branch ran (`st.error`) and whether the temporary file still exists at
  return time.
* `load_api_key` / `save_api_key` (lines 42-52) act on a model of the
  config-file state.

Placeholder-token braces appear in string literals in escaped form
(`\x7b` = left brace, `\x7d` = right brace).
-/

namespace Worship

/-- Python strings as sequences of code points. -/
abbrev Str := List Char

/-- The ten decimal digit characters. -/
def digitChars : List Char := ['0', '1', '2', '3', '4', '5', '6', '7', '8', '9']

/-- The decimal digit character for a value below ten. -/
def dChar (n : Nat) : Char := digitChars.getD n '0'

/-- Fuel-driven decimal rendering: most significant digit first. -/
def dsAux : Nat → Nat → Str
  | 0, _ => []
  | f + 1, n => if n < 10 then [dChar n] else dsAux f (n / 10) ++ [dChar (n % 10)]

/-- Decimal rendering of a natural number, as Python's `str(i)`. -/
def ds (n : Nat) : Str := dsAux (n + 1) n

/-- Numeric value of a digit character (used to invert `ds`). -/
def dVal (c : Char) : Nat := c.toNat - 48

/-- Reads a digit string back into a number; inverse of `ds`. -/
def evalDs (l : Str) : Nat := l.foldl (fun a c => 10 * a + dVal c) 0

/-- Python values that can appear in the parsed bulletin record: `None`,
a string, or (as representative of non-string JSON scalars) an integer. -/
inductive PyVal
  | vNone
  | vStr (s : Str)
  | vInt (n : Int)
deriving DecidableEq

/-- Python's `str()` on an integer. -/
def intStr (n : Int) : Str := if n < 0 then '-' :: ds n.natAbs else ds n.toNat

/-- Line 115 of the source: `safe_value = str(v) if v is not None else ""`. -/
def safe_value : PyVal → Str
  | .vNone => []
  | .vStr s => s
  | .vInt n => intStr n

/-- Helper for `pyReplace`: while the counter is positive the characters of a
just-matched pattern occurrence are skipped; at zero the scan looks for the
pattern at the current position. -/
def pyReplaceAux (pat rep : Str) : Nat → Str → Str
  | _, [] => []
  | n + 1, _ :: s => pyReplaceAux pat rep n s
  | 0, c :: s =>
    if pat.isPrefixOf (c :: s) = true ∧ pat ≠ [] then
      rep ++ pyReplaceAux pat rep (pat.length - 1) s
    else
      c :: pyReplaceAux pat rep 0 s

/-- Python's `s.replace(pat, rep)`: replaces every occurrence of `pat`,
scanning left to right without overlap.  (For the empty pattern — which the
program never uses — this model returns `s` unchanged.) -/
def pyReplace (pat rep s : Str) : Str := pyReplaceAux pat rep 0 s

/-- Helper for `pySplit`, with the same skip-counter discipline as
`pyReplaceAux`. -/
def pySplitAux (pat : Str) : Nat → Str → List Str
  | _, [] => [[]]
  | n + 1, _ :: s => pySplitAux pat n s
  | 0, c :: s =>
    if pat.isPrefixOf (c :: s) = true ∧ pat ≠ [] then
      [] :: pySplitAux pat (pat.length - 1) s
    else
      match pySplitAux pat 0 s with
      | [] => [[c]]
      | p :: ps => (c :: p) :: ps

/-- Splits a string at every (left-to-right, non-overlapping) occurrence of
`pat`; the mathematical description of what `str.replace` replaces. -/
def pySplit (pat s : Str) : List Str := pySplitAux pat 0 s

/-- Python's substring test `pat in s`. -/
def occursB (pat : Str) : Str → Bool
  | [] => pat.isEmpty
  | c :: s => pat.isPrefixOf (c :: s) || occursB pat s

/-- `pat` occurs as a contiguous substring of `s`. -/
def Occurs (pat s : Str) : Prop := ∃ a b, s = a ++ pat ++ b

/-- Python whitespace recognised by `str.strip()`. -/
def isPySpace (c : Char) : Bool :=
  c == ' ' || c == '\t' || c == '\n' || c == '\r' || c == '\x0b' || c == '\x0c'

/-- Python's `s.strip()`. -/
def pyStrip (s : Str) : Str :=
  (((s.dropWhile isPySpace).reverse).dropWhile isPySpace).reverse

/-- A placeholder token: two opening braces, a body, two closing braces. -/
def tok (b : Str) : Str := '\x7b' :: '\x7b' :: (b ++ ['\x7d', '\x7d'])

/-- The body contains no brace characters. -/
abbrev braceFree (b : Str) : Prop := ∀ c ∈ b, c ≠ '\x7b' ∧ c ≠ '\x7d'

/-- The parsed bulletin dictionary.  A field holds `none` when the key is
absent from the JSON object (the model covers the six keys named in the
prompt; `hymn_list` is a JSON array). -/
structure JuboData where
  sermon_title : Option PyVal
  preacher : Option PyVal
  prayer_person : Option PyVal
  bible_ref : Option PyVal
  bible_text : Option PyVal
  hymn_list : Option (List PyVal)
deriving DecidableEq

/-- The hymn token for 1-based position `i`: lines 105-106 build the key
with an f-string around `str(i)`. -/
def hymnToken (i : Nat) : Str := "\x7b\x7b찬송".toList ++ ds i ++ "\x7d\x7d".toList

/-- The entries contributed by `for i, hymn in enumerate(hymns)` (lines
105-106), starting at 1-based index `n`. -/
def hymnPairs : Nat → List PyVal → List (Str × PyVal)
  | _, [] => []
  | n, h :: hs => (hymnToken n, h) :: hymnPairs (n + 1) hs

/-- The substitution table of lines 96-106: the five fixed tokens (with
`data.get(key, '')` defaulting a missing field to the empty string) followed
by one entry per hymn.  Python dict insertion order is kept; all keys are
distinct, so an association list models the dict exactly. -/
def replacements (d : JuboData) : List (Str × PyVal) :=
  [("\x7b\x7b설교제목\x7d\x7d".toList, d.sermon_title.getD (.vStr [])),
   ("\x7b\x7b설교자\x7d\x7d".toList, d.preacher.getD (.vStr [])),
   ("\x7b\x7b기도자\x7d\x7d".toList, d.prayer_person.getD (.vStr [])),
   ("\x7b\x7b성경본문\x7d\x7d".toList, d.bible_ref.getD (.vStr [])),
   ("\x7b\x7b말씀내용\x7d\x7d".toList, d.bible_text.getD (.vStr []))]
  ++ hymnPairs 1 (d.hymn_list.getD [])

/-- Lines 113-116, one table entry applied to a run's current text:
`if k in run.text: run.text = run.text.replace(k, safe_value)`. -/
def applyOne (s : Str) (kv : Str × PyVal) : Str :=
  if occursB kv.1 s = true then pyReplace kv.1 (safe_value kv.2) s else s

/-- The full inner loop over the table, applied to one run's text. -/
def fillRunText (table : List (Str × PyVal)) (s : Str) : Str :=
  table.foldl applyOne s

/-- A text run: its text and an opaque formatting payload standing for the
font/size/color attributes the substitution pass never touches. -/
structure Run where
  text : Str
  fmt : Nat
deriving DecidableEq

/-- A paragraph of a text frame. -/
structure Paragraph where
  runs : List Run
deriving DecidableEq

/-- A slide shape; `has_text_frame` mirrors `shape.has_text_frame`, and a
shape without a text frame is skipped by the fill pass. -/
structure Shape where
  has_text_frame : Bool
  paragraphs : List Paragraph
deriving DecidableEq

/-- A slide. -/
structure Slide where
  shapes : List Shape
deriving DecidableEq

/-- A presentation document. -/
structure Pres where
  slides : List Slide
deriving DecidableEq

/-- Substitution applied to one run (line 116 keeps the run, changing only
its text). -/
def fillRun (table : List (Str × PyVal)) (r : Run) : Run :=
  { text := fillRunText table r.text, fmt := r.fmt }

/-- Substitution applied to one paragraph. -/
def fillParagraph (table : List (Str × PyVal)) (p : Paragraph) : Paragraph :=
  { runs := p.runs.map (fillRun table) }

/-- Substitution applied to one shape; line 110 skips shapes without a text
frame (`if not shape.has_text_frame: continue`). -/
def fillShape (table : List (Str × PyVal)) (sh : Shape) : Shape :=
  if sh.has_text_frame then
    { has_text_frame := sh.has_text_frame, paragraphs := sh.paragraphs.map (fillParagraph table) }
  else sh

/-- Substitution applied to one slide. -/
def fillSlide (table : List (Str × PyVal)) (sl : Slide) : Slide :=
  { shapes := sl.shapes.map (fillShape table) }

/-- Lines 92-121: build the table from the record and traverse every slide,
shape, paragraph and run, substituting in place. -/
def fill_ppt_text (prs : Pres) (d : JuboData) : Pres :=
  { slides := prs.slides.map (fillSlide (replacements d)) }

/-- Everything about a presentation except run texts: per slide, per shape,
the text-frame flag and the formatting payload of every run of every
paragraph.  Equal skeletons mean equal slide/shape/paragraph/run counts and
untouched formatting. -/
def skeleton (p : Pres) : List (List (Bool × List (List Nat))) :=
  p.slides.map fun sl =>
    sl.shapes.map fun sh =>
      (sh.has_text_frame, sh.paragraphs.map fun pa => pa.runs.map Run.fmt)

/-- Outcome of a Python expression that may raise. -/
inductive Outcome (α : Type)
  | ok (val : α)
  | exn
deriving DecidableEq

/-- The Python object `analyze_jubo_deep` returns: `None`, or the dict
parsed from the reply (restricted to the six schema keys of the prompt). -/
inductive PyObj
  | objNone
  | objDict (d : JuboData)
deriving DecidableEq

/-- Python truthiness of that object: `None` is falsy, a dict is truthy
exactly when it is non-empty. -/
def pyTruthy : PyObj → Bool
  | .objNone => false
  | .objDict d =>
    d.sermon_title.isSome || d.preacher.isSome || d.prayer_person.isSome ||
      d.bible_ref.isSome || d.bible_text.isSome || d.hymn_list.isSome

/-- Outcomes of the external steps inside the `try` block of
`analyze_jubo_deep`: the file upload, the generation call (yielding
`response.text` on success), and `json.loads` (abstracted as a function
from the stripped text to a raised-or-returned Python object). -/
structure ExtEnv where
  upload : Outcome Unit
  generate : Outcome Str
  loads : Str → Outcome PyObj

/-- What a call to `analyze_jubo_deep` did: the returned object, whether
the `except` branch ran (`st.error` shown), and whether the temporary file
still exists when the function returns. -/
structure AnalyzeResult where
  result : PyObj
  errorShown : Bool
  tmpLeft : Bool
deriving DecidableEq

/-- Line 83: `response.text.replace("```json", "").replace("```", "").strip()`. -/
def stripFences (s : Str) : Str :=
  pyStrip (pyReplace "```".toList [] (pyReplace "```json".toList [] s))

/-- Lines 61-90.  The image is written to a temporary file; the `try` block
uploads it, calls the model and parses the fence-stripped reply; the
`except` branch shows an error and returns `None`; the `finally` block
deletes the temporary file when it exists. -/
def analyze_jubo_deep (env : ExtEnv) : AnalyzeResult :=
  let tmpExists := true
  let tryRes : Outcome PyObj :=
    match env.upload with
    | .exn => .exn
    | .ok _ =>
      match env.generate with
      | .exn => .exn
      | .ok reply => env.loads (stripFences reply)
  let tmpAfterFinally := if tmpExists then false else tmpExists
  match tryRes with
  | .ok obj => { result := obj, errorShown := false, tmpLeft := tmpAfterFinally }
  | .exn => { result := .objNone, errorShown := true, tmpLeft := tmpAfterFinally }

/-- Lines 196-199: `result = analyze_jubo_deep(...)`, then
`if result: st.session_state['ppt_data'] = result` — the stored record is
replaced only when the result is truthy. -/
def sessionAfterAnalyze (prev : Option PyObj) (env : ExtEnv) : Option PyObj :=
  if pyTruthy (analyze_jubo_deep env).result then
    some (analyze_jubo_deep env).result
  else prev

/-- The state of `config.json` as `load_api_key` can encounter it: absent,
present but not valid JSON, valid JSON that is not an object, or an object
whose `api_key` key is absent or holds a value. -/
inductive ConfigState
  | absent
  | invalid
  | nonObj
  | obj (api_key : Option PyVal)
deriving DecidableEq

/-- Lines 42-47: return `json.load(f).get("api_key", "")` when the file
exists, the empty string otherwise.  `json.load` raises on invalid JSON,
and `.get` raises when the parsed value is not a dict. -/
def load_api_key : ConfigState → Outcome PyVal
  | .absent => .ok (.vStr [])
  | .invalid => .exn
  | .nonObj => .exn
  | .obj none => .ok (.vStr [])
  | .obj (some v) => .ok v

/-- Lines 49-52: overwrite the file with the object holding the new key. -/
def save_api_key (key : Str) (_ : ConfigState) : ConfigState :=
  .obj (some (.vStr key))

/-- Non-interference of a pattern `k` with a bystander string `t`: neither
contains the other, no proper non-empty suffix of `k` begins `t`, and no
proper non-empty suffix of `t` begins `k`.  Under these conditions no
occurrence of `k` in any string can overlap an occurrence of `t`, so
replacing `k` cannot destroy an occurrence of `t`. -/
def Survives (k t : Str) : Prop :=
  k ≠ [] ∧ t ≠ [] ∧ ¬ Occurs t k ∧ ¬ Occurs k t ∧
    (∀ u w, k = u ++ w → u ≠ [] → w ≠ [] → ∀ r, t ≠ w ++ r) ∧
    (∀ u w, t = u ++ w → u ≠ [] → w ≠ [] → ∀ r, k ≠ w ++ r)

/-- Witness record for C1: only the preacher field is present. -/
def wData1 : JuboData :=
  { sermon_title := none, preacher := some (.vStr "김철수".toList),
    prayer_person := none, bible_ref := none, bible_text := none, hymn_list := none }

/-- Witness run text for C1, containing the preacher token twice. -/
def wRun1 : Str := "순서: \x7b\x7b설교자\x7d\x7d 외 \x7b\x7b설교자\x7d\x7d".toList

/-- Witness record for C2: exactly two hymns. -/
def wData2 : JuboData :=
  { sermon_title := none, preacher := none, prayer_person := none,
    bible_ref := none, bible_text := none,
    hymn_list := some [.vStr "하늘".toList, .vStr "은혜".toList] }

/-- An AI reply whose JSON object contains only the `preacher` key. -/
def cexReply : Str := "\x7b\"preacher\": \"Kim\"\x7d".toList

/-- The dict `json.loads` produces from `cexReply`. -/
def cexData : JuboData :=
  { sermon_title := none, preacher := some (.vStr "Kim".toList),
    prayer_person := none, bible_ref := none, bible_text := none, hymn_list := none }

/-- Environment for the C3 counterexample: every external step succeeds and
`json.loads` parses `cexReply` to the one-key dict `cexData`. -/
def cexEnv : ExtEnv :=
  { upload := .ok (), generate := .ok cexReply,
    loads := fun s => if s = stripFences cexReply then .ok (.objDict cexData) else .exn }

/-- Environment in which the upload step raises. -/
def envUploadFail : ExtEnv :=
  { upload := .exn, generate := .exn, loads := fun _ => .exn }

/-- Witness template for C5: one slide with a text shape (one run, no
tokens) and one shape without a text frame. -/
def wPres : Pres :=
  { slides :=
      [{ shapes :=
          [{ has_text_frame := true,
             paragraphs := [{ runs := [{ text := "주일예배".toList, fmt := 7 }] }] },
           { has_text_frame := false, paragraphs := [] }] }] }

/-- Record for C9: the sermon-title value is itself the literal preacher
token, so the first substitution inserts a token that the second one then
replaces. -/
def seqData : JuboData :=
  { sermon_title := some (.vStr "\x7b\x7b설교자\x7d\x7d".toList),
    preacher := some (.vStr "김철수".toList),
    prayer_person := none, bible_ref := none, bible_text := none, hymn_list := none }

/-! ## String model lemmas -/

theorem prefB_iff (l₁ l₂ : Str) : l₁.isPrefixOf l₂ = true ↔ ∃ r, l₂ = l₁ ++ r := by
  rw [ List.isPrefixOf_iff_prefix]
  exact ⟨fun ⟨r, h⟩ => ⟨r, h.symm⟩, fun ⟨r, h⟩ => ⟨r, h.symm⟩⟩

theorem pyReplaceAux_skip (pat rep : Str) :
    ∀ n s, pyReplaceAux pat rep n s = pyReplaceAux pat rep 0 (s.drop n)
  | 0, _ => rfl
  | _ + 1, [] => rfl
  | n + 1, _ :: s => pyReplaceAux_skip pat rep n s

theorem pyReplace_nil (pat rep : Str) : pyReplace pat rep [] = [] := rfl

theorem pyReplace_cons_match (p : Char) (pt rep : Str) (c : Char) (s : Str)
    (h : (p :: pt).isPrefixOf (c :: s) = true) :
    pyReplace (p :: pt) rep (c :: s) = rep ++ pyReplace (p :: pt) rep (s.drop pt.length) := by
  show pyReplaceAux _ _ 0 _ = _
  rw [pyReplaceAux, if_pos ⟨h, by simp⟩, pyReplaceAux_skip]
  simp [pyReplace]

theorem pyReplace_cons_nomatch (pat rep : Str) (c : Char) (s : Str)
    (h : ¬ (pat.isPrefixOf (c :: s) = true ∧ pat ≠ [])) :
    pyReplace pat rep (c :: s) = c :: pyReplace pat rep s := by
  show pyReplaceAux _ _ 0 _ = _
  rw [pyReplaceAux, if_neg h]
  rfl

theorem pyReplace_append_match (pat rep r : Str) (h : pat ≠ []) :
    pyReplace pat rep (pat ++ r) = rep ++ pyReplace pat rep r := by
  match pat, h with
  | p :: pt, _ =>
    have hpre : (p :: pt).isPrefixOf (p :: (pt ++ r)) = true :=
      (prefB_iff _ _).mpr ⟨r, by simp⟩
    have := pyReplace_cons_match p pt rep p (pt ++ r) hpre
    simpa [List.drop_left] using this

theorem occursB_iff (pat : Str) : ∀ s, occursB pat s = true ↔ Occurs pat s
  | [] => by
    constructor
    · intro h
      have : pat = [] := by simpa [occursB, List.isEmpty_iff] using h
      exact ⟨[], [], by simp [this]⟩
    · rintro ⟨a, b, hab⟩
      have h1 : a ++ pat = [] ∧ b = [] := List.append_eq_nil.mp hab.symm
      have : pat = [] := (List.append_eq_nil.mp h1.1).2
      simp [occursB, this]
  | c :: s => by
    constructor
    · intro h
      have h' : (pat.isPrefixOf (c :: s) || occursB pat s) = true := h
      rcases Bool.or_eq_true_iff.mp h' with hp | ho
      · obtain ⟨r, hr⟩ := (prefB_iff _ _).mp hp
        exact ⟨[], r, by simpa using hr⟩
      · obtain ⟨a, b, hab⟩ := (occursB_iff pat s).mp ho
        exact ⟨c :: a, b, by simp [hab]⟩
    · rintro ⟨a, b, hab⟩
      show (pat.isPrefixOf (c :: s) || occursB pat s) = true
      match a, hab with
      | [], hab =>
        have hp : pat.isPrefixOf (c :: s) = true :=
          (prefB_iff _ _).mpr ⟨b, by simpa using hab⟩
        simp [hp]
      | a0 :: a', hab =>
        have hs : s = a' ++ pat ++ b := by
          injection hab with h1 h2
        have ho := (occursB_iff pat s).mpr ⟨a', b, hs⟩
        simp [ho]

theorem occurs_cons (pat : Str) (c : Char) (s : Str) (h : Occurs pat s) :
    Occurs pat (c :: s) := by
  obtain ⟨a, b, rfl⟩ := h
  exact ⟨c :: a, b, rfl⟩

theorem occurs_append_left (pat u s : Str) (h : Occurs pat s) : Occurs pat (u ++ s) := by
  obtain ⟨a, b, rfl⟩ := h
  exact ⟨u ++ a, b, by simp⟩

theorem occurs_append_right (pat s u : Str) (h : Occurs pat s) : Occurs pat (s ++ u) := by
  obtain ⟨a, b, rfl⟩ := h
  exact ⟨a, b ++ u, by simp⟩

theorem occurs_nil_iff (pat : Str) : Occurs pat [] ↔ pat = [] := by
  constructor
  · rintro ⟨a, b, hab⟩
    exact (List.append_eq_nil.mp (List.append_eq_nil.mp hab.symm).1).2
  · rintro rfl
    exact ⟨[], [], rfl⟩

theorem occurs_self (pat : Str) : Occurs pat pat := ⟨[], [], by simp⟩

theorem not_occurs_cons (pat : Str) (c : Char) (s : Str) (h : ¬ Occurs pat (c :: s)) :
    ¬ Occurs pat s := fun ho => h (occurs_cons pat c s ho)

theorem pyReplace_of_not_occurs (pat rep : Str) :
    ∀ s, ¬ Occurs pat s → pyReplace pat rep s = s
  | [], _ => rfl
  | c :: s, h => by
    have hne : pat ≠ [] := by
      rintro rfl
      exact h ⟨[], c :: s, rfl⟩
    have hpre : ¬ pat.isPrefixOf (c :: s) = true := by
      intro hp
      obtain ⟨r, hr⟩ := (prefB_iff _ _).mp hp
      exact h ⟨[], r, by simpa using hr⟩
    rw [pyReplace_cons_nomatch pat rep c s (by tauto),
      pyReplace_of_not_occurs pat rep s (not_occurs_cons pat c s h)]

theorem pySplitAux_skip (pat : Str) :
    ∀ n s, pySplitAux pat n s = pySplitAux pat 0 (s.drop n)
  | 0, _ => rfl
  | _ + 1, [] => rfl
  | n + 1, _ :: s => pySplitAux_skip pat n s

theorem pySplit_nil (pat : Str) : pySplit pat [] = [[]] := rfl

theorem pySplit_cons_match (p : Char) (pt : Str) (c : Char) (s : Str)
    (h : (p :: pt).isPrefixOf (c :: s) = true) :
    pySplit (p :: pt) (c :: s) = [] :: pySplit (p :: pt) (s.drop pt.length) := by
  show pySplitAux _ 0 _ = _
  rw [pySplitAux, if_pos ⟨h, by simp⟩, pySplitAux_skip]
  simp [pySplit]

theorem pySplit_cons_nomatch (pat : Str) (c : Char) (s : Str)
    (h : ¬ (pat.isPrefixOf (c :: s) = true ∧ pat ≠ [])) :
    pySplit pat (c :: s) =
      match pySplit pat s with
      | [] => [[c]]
      | p :: ps => (c :: p) :: ps := by
  show pySplitAux _ 0 _ = _
  rw [pySplitAux, if_neg h]
  rfl

theorem pySplit_ne_nil (pat : Str) : ∀ s, pySplit pat s ≠ []
  | [] => by simp [pySplit_nil]
  | c :: s => by
    by_cases h : pat.isPrefixOf (c :: s) = true ∧ pat ≠ []
    · match pat, h.2 with
      | p :: pt, _ =>
        rw [pySplit_cons_match p pt c s h.1]
        simp
    · rw [pySplit_cons_nomatch pat c s h]
      cases hps : pySplit pat s <;> simp

theorem intercalate_pair (v p q : Str) (qs : List Str) :
    List.intercalate v (p :: q :: qs) = p ++ v ++ List.intercalate v (q :: qs) := by
  simp [List.intercalate, List.intersperse]

theorem intercalate_single (v p : Str) : List.intercalate v [p] = p := by
  simp [List.intercalate]

theorem pyReplace_eq_intercalate (pat rep : Str) :
    ∀ s, pyReplace pat rep s = List.intercalate rep (pySplit pat s)
  | [] => by simp [pyReplace_nil, pySplit_nil, intercalate_single]
  | c :: s => by
    by_cases h : pat.isPrefixOf (c :: s) = true ∧ pat ≠ []
    · match pat, h.2 with
      | p :: pt, _ =>
        rw [pyReplace_cons_match p pt rep c s h.1, pySplit_cons_match p pt c s h.1,
          pyReplace_eq_intercalate (p :: pt) rep (s.drop pt.length)]
        cases hps : pySplit (p :: pt) (s.drop pt.length) with
        | nil => exact absurd hps (pySplit_ne_nil _ _)
        | cons q qs => rw [intercalate_pair]; simp
    · rw [pyReplace_cons_nomatch pat rep c s h, pySplit_cons_nomatch pat c s h,
        pyReplace_eq_intercalate pat rep s]
      cases hps : pySplit pat s with
      | nil => exact absurd hps (pySplit_ne_nil _ _)
      | cons q qs =>
        cases qs with
        | nil => rw [intercalate_single, intercalate_single]
        | cons q' qs' => rw [intercalate_pair, intercalate_pair]; simp
termination_by s => s.length
decreasing_by
  · simp only [List.length_drop, List.length_cons]; omega
  · simp

theorem pySplit_parts (pat : Str) (hpat : pat ≠ []) :
    ∀ s, (∃ p ps r, pySplit pat s = p :: ps ∧ s = p ++ r) ∧
      ∀ p ∈ pySplit pat s, ¬ Occurs pat p
  | [] => by
    refine ⟨⟨[], [], [], rfl, rfl⟩, ?_⟩
    intro p hp
    rw [pySplit_nil] at hp
    simp at hp
    subst hp
    rw [occurs_nil_iff]
    exact hpat
  | c :: s => by
    by_cases h : pat.isPrefixOf (c :: s) = true ∧ pat ≠ []
    · match pat, h.2 with
      | p0 :: pt, _ =>
        rw [pySplit_cons_match p0 pt c s h.1]
        have ih := pySplit_parts (p0 :: pt) hpat (s.drop pt.length)
        refine ⟨⟨[], pySplit (p0 :: pt) (s.drop pt.length), c :: s, rfl, rfl⟩, ?_⟩
        intro p hp
        rcases List.mem_cons.mp hp with rfl | hmem
        · rw [occurs_nil_iff]; exact hpat
        · exact ih.2 p hmem
    · rw [pySplit_cons_nomatch pat c s h]
      have ih := pySplit_parts pat hpat s
      obtain ⟨⟨q, qs, r, hqs, hqr⟩, hfree⟩ := ih
      rw [hqs]
      refine ⟨⟨c :: q, qs, r, rfl, by simp [hqr]⟩, ?_⟩
      intro p hp
      rcases List.mem_cons.mp hp with rfl | hmem
      · rintro ⟨a, b, hab⟩
        match a, hab with
        | [], hab =>
          have hpre : pat.isPrefixOf (c :: s) = true := by
            apply (prefB_iff _ _).mpr
            refine ⟨b ++ r, ?_⟩
            have hcq : c :: q = pat ++ b := by simpa using hab
            rw [hqr, show c :: (q ++ r) = (c :: q) ++ r from rfl, hcq, List.append_assoc]
          exact h ⟨hpre, hpat⟩
        | a0 :: a', hab =>
          have hq : q = a' ++ pat ++ b := by
            injection hab with h1 h2
          exact hfree q (hqs ▸ List.mem_cons_self q qs) ⟨a', b, hq⟩
      · exact hfree p (hqs ▸ List.mem_cons_of_mem q hmem)
termination_by s => s.length
decreasing_by
  · simp only [List.length_drop, List.length_cons]; omega
  · simp

theorem pySplit_pieces_free (pat : Str) (hpat : pat ≠ []) (s : Str) :
    ∀ p ∈ pySplit pat s, ¬ Occurs pat p :=
  (pySplit_parts pat hpat s).2

theorem survives_prefix_copy (k v t : Str) (hs : Survives k t) :
    ∀ t₂ t₁ r, t = t₁ ++ t₂ → pyReplace k v (t₂ ++ r) = t₂ ++ pyReplace k v r
  | [], _, r, _ => by simp
  | c :: t₂', t₁, r, ht => by
    have hknp : ¬ k.isPrefixOf (c :: (t₂' ++ r)) = true := by
      intro hp
      obtain ⟨z, hz⟩ := (prefB_iff _ _).mp hp
      have heq : (c :: t₂') ++ r = k ++ z := by simpa using hz
      rcases List.append_eq_append_iff.mp heq with ⟨w, hw1, _⟩ | ⟨w, hw1, _⟩
      · by_cases hw : w = []
        · subst hw
          exact hs.2.2.2.1 ⟨t₁, [], by simp [ht, hw1]⟩
        · by_cases ht₁ : t₁ = []
          · subst ht₁
            exact hs.2.2.1 ⟨[], w, by simp [hw1, ht]⟩
          · exact hs.2.2.2.2.2 t₁ (c :: t₂') ht ht₁ (by simp) w hw1
      · exact hs.2.2.2.1 ⟨t₁, w, by rw [ht, hw1]; simp⟩
    rw [show (c :: t₂') ++ r = c :: (t₂' ++ r) from rfl,
      pyReplace_cons_nomatch k v c (t₂' ++ r) (by tauto),
      survives_prefix_copy k v t hs t₂' (t₁ ++ [c]) r (by simp [ht])]
    rfl

theorem occurs_past_match (k t rest : Str) (hs : Survives k t)
    (h : Occurs t (k ++ rest)) : Occurs t rest := by
  obtain ⟨a, b, hab⟩ := h
  have heq : a ++ (t ++ b) = k ++ rest := by simpa [List.append_assoc] using hab.symm
  rcases List.append_eq_append_iff.mp heq with ⟨w, hw1, hw2⟩ | ⟨w, hw1, hw2⟩
  · rcases List.append_eq_append_iff.mp hw2 with ⟨y, hy1, _⟩ | ⟨y, hy1, hy2⟩
    · exact absurd ⟨a, y, by rw [hw1, hy1]; simp⟩ hs.2.2.1
    · by_cases hw : w = []
      · subst hw
        have ht : t = y := by simpa using hy1
        exact ⟨[], b, by simp [hy2, ht]⟩
      · by_cases hy : y = []
        · subst hy
          have hw' : t = w := by simpa using hy1
          exact absurd ⟨a, [], by simp [hw1, hw']⟩ hs.2.2.1
        · by_cases ha : a = []
          · subst ha
            have hk : k = w := by simpa using hw1
            exact absurd ⟨[], y, by simp [hy1, hk]⟩ hs.2.2.2.1
          · exact absurd hy1 (hs.2.2.2.2.1 a w hw1 ha hw y)
  · exact ⟨w, b, by rw [hw2]; simp⟩

theorem pyReplace_survives (k v t : Str) (hs : Survives k t) :
    ∀ s, Occurs t s → Occurs t (pyReplace k v s) := by
  have main : ∀ n s, s.length ≤ n → Occurs t s → Occurs t (pyReplace k v s) := by
    intro n
    induction n with
    | zero =>
      intro s hlen ho
      have hsnil : s = [] := List.length_eq_zero.mp (Nat.le_zero.mp hlen)
      subst hsnil
      exact absurd ((occurs_nil_iff t).mp ho) hs.2.1
    | succ n ih =>
      intro s hlen ho
      match s with
      | [] => exact absurd ((occurs_nil_iff t).mp ho) hs.2.1
      | c :: s' =>
        by_cases hp : k.isPrefixOf (c :: s') = true
        · obtain ⟨rest, hrest⟩ := (prefB_iff _ _).mp hp
          rw [hrest, pyReplace_append_match k v rest hs.1]
          apply occurs_append_left
          apply ih rest ?_ (occurs_past_match k t rest hs (hrest ▸ ho))
          have hlen2 : s'.length + 1 = k.length + rest.length := by
            have := congrArg List.length hrest
            simpa using this
          have hk1 : 1 ≤ k.length := by
            match k, hs.1 with
            | _ :: ks, _ => simp
          simp only [List.length_cons] at hlen
          omega
        · obtain ⟨a, b, hab⟩ := ho
          match a, hab with
          | [], hab =>
            have heq : c :: s' = t ++ b := by simpa using hab
            rw [heq, survives_prefix_copy k v t hs t [] b (by simp)]
            exact occurs_append_right t t _ (occurs_self t)
          | a0 :: a', hab =>
            have h2 : s' = a' ++ t ++ b := by
              injection hab with h1 h2
            rw [pyReplace_cons_nomatch k v c s' (by tauto)]
            refine occurs_cons t c _ (ih s' ?_ ⟨a', b, h2⟩)
            simpa using Nat.succ_le_succ_iff.mp (by simpa using hlen)
  exact fun s => main s.length s (le_refl _)

theorem fillRunText_id (table : List (Str × PyVal)) (s : Str)
    (h : ∀ kv ∈ table, occursB kv.1 s = false) : fillRunText table s = s := by
  induction table with
  | nil => rfl
  | cons kv tks ih =>
    have h0 : occursB kv.1 s = false := h kv (by simp)
    show fillRunText tks (applyOne s kv) = s
    rw [show applyOne s kv = s from by simp [applyOne, h0]]
    exact ih fun kv' hkv' => h kv' (by simp [hkv'])

theorem fillRunText_survives (t : Str) :
    ∀ (table : List (Str × PyVal)) (s : Str),
      (∀ kv ∈ table, Survives kv.1 t) → Occurs t s → Occurs t (fillRunText table s)
  | [], _, _, ho => ho
  | kv :: tks, s, h, ho => by
    show Occurs t (fillRunText tks (applyOne s kv))
    apply fillRunText_survives t tks (applyOne s kv) fun kv' hk => h kv' (by simp [hk])
    unfold applyOne
    split
    · exact pyReplace_survives kv.1 (safe_value kv.2) t (h kv (by simp)) s ho
    · exact ho

/-! ## Token lemmas: distinct brace-delimited tokens cannot overlap -/

theorem braceFree_close_eq (l₁ l₂ : Str) :
    ∀ b₁ b₂ : Str, braceFree b₁ → braceFree b₂ →
      b₁ ++ '\x7d' :: l₁ = b₂ ++ '\x7d' :: l₂ → b₁ = b₂ ∧ l₁ = l₂
  | [], [], _, _, h => ⟨rfl, by simpa using h⟩
  | [], c :: b₂', _, h₂, h => by
    exfalso
    have hc : c = '\x7d' := by
      have := h.symm
      injection this with h1 _
    exact ((h₂ c (by simp)).2 hc)
  | c :: b₁', [], h₁, _, h => by
    exfalso
    have hc : c = '\x7d' := by injection h with h1 _
    exact ((h₁ c (by simp)).2 hc)
  | c₁ :: b₁', c₂ :: b₂', h₁, h₂, h => by
    have hc : c₁ = c₂ := by injection h with h1 _
    have ht : b₁' ++ '\x7d' :: l₁ = b₂' ++ '\x7d' :: l₂ := by injection h with _ h2
    obtain ⟨hb, hl⟩ :=
      braceFree_close_eq l₁ l₂ b₁' b₂'
        (fun c hc' => h₁ c (by simp [hc'])) (fun c hc' => h₂ c (by simp [hc'])) ht
    exact ⟨by rw [hc, hb], hl⟩

theorem tok_ne_nil (b : Str) : tok b ≠ [] := by simp [tok]

theorem tok_inj (b₁ b₂ : Str) (h : tok b₁ = tok b₂) : b₁ = b₂ := by
  have h' : b₁ ++ ['\x7d', '\x7d'] = b₂ ++ ['\x7d', '\x7d'] := by
    injection h with _ h1
    injection h1 with _ h2
  exact List.append_cancel_right h'

theorem open_br_mem_tok (b : Str) : '\x7b' ∈ tok b := by simp [tok]

theorem not_occurs_tok_tok (b₁ b₂ : Str) (h₁ : braceFree b₁) (h₂ : braceFree b₂)
    (hne : b₁ ≠ b₂) : ¬ Occurs (tok b₁) (tok b₂) := by
  rintro ⟨a, b, hab⟩
  match a, hab with
  | [], hab =>
    have hb : tok b₂ = tok b₁ ++ b := by simpa using hab
    have h' : b₂ ++ '\x7d' :: ['\x7d'] = b₁ ++ '\x7d' :: ('\x7d' :: b) := by
      have := hb
      simp only [tok] at this
      injection this with _ h1
      injection h1 with _ h2
      simpa [List.append_assoc] using h2
    exact hne (braceFree_close_eq ['\x7d'] ('\x7d' :: b) b₂ b₁ h₂ h₁ h').1.symm
  | [x], hab =>
    have hb : tok b₂ = x :: (tok b₁ ++ b) := by simpa using hab
    simp only [tok] at hb
    injection hb with _ h1
    injection h1 with h2 h3
    match b₂, h₂, h3 with
    | [], _, h3 => injection h3 with h4 _; exact absurd h4 (by decide)
    | c :: b₂', h₂, h3 =>
      have hc : c = '\x7b' := by injection h3 with h4 _
      exact ((h₂ c (by simp)).1 hc)
  | x :: y :: a', hab =>
    have hb : tok b₂ = x :: y :: ((a' ++ tok b₁) ++ b) := by simpa [List.append_assoc] using hab
    simp only [tok] at hb
    injection hb with _ h1
    injection h1 with _ h2
    have hmem : '\x7b' ∈ b₂ ++ ['\x7d', '\x7d'] := by
      rw [h2]
      exact List.mem_append.mpr (Or.inl (List.mem_append.mpr (Or.inr (open_br_mem_tok b₁))))
    rcases List.mem_append.mp hmem with hin | hin
    · exact ((h₂ _ hin).1 rfl)
    · simp at hin

theorem tok_suffix_not_lead (b₁ b₂ : Str) (hbf : braceFree b₁) :
    ∀ u w, tok b₁ = u ++ w → u ≠ [] → w ≠ [] → ∀ r, tok b₂ ≠ w ++ r := by
  intro u w htok hu hw r heq
  match w, hw with
  | w0 :: w', _ =>
    have hw0 : w0 = '\x7b' := by
      have : tok b₂ = w0 :: (w' ++ r) := by simpa using heq
      simp only [tok] at this
      injection this with h1 _
      exact h1.symm
    subst hw0
    match u, hu with
    | [u0], _ =>
      have h1 : tok b₁ = u0 :: '\x7b' :: w' := by simpa using htok
      simp only [tok] at h1
      injection h1 with _ h2
      injection h2 with _ h3
      have heq2 : tok b₂ = '\x7b' :: ((b₁ ++ ['\x7d', '\x7d']) ++ r) := by
        rw [heq, ← h3]
        rfl
      simp only [tok] at heq2
      injection heq2 with _ h4
      match b₁, hbf, h4 with
      | [], _, h4 =>
        injection h4 with h5 _
        exact absurd h5 (by decide)
      | c :: b₁', hbf, h4 =>
        have hc : c = '\x7b' := by
          injection h4 with h5 _
          exact h5.symm
        exact ((hbf c (by simp)).1 hc)
    | u0 :: u1 :: u', _ =>
      have h1 : tok b₁ = u0 :: u1 :: (u' ++ '\x7b' :: w') := by simpa [List.append_assoc] using htok
      simp only [tok] at h1
      injection h1 with _ h2
      injection h2 with _ h3
      have hmem : '\x7b' ∈ b₁ ++ ['\x7d', '\x7d'] := by
        rw [h3]
        exact List.mem_append.mpr (Or.inr (by simp))
      rcases List.mem_append.mp hmem with hin | hin
      · exact ((hbf _ hin).1 rfl)
      · simp at hin

theorem survives_tok (b₁ b₂ : Str) (h₁ : braceFree b₁) (h₂ : braceFree b₂)
    (hne : b₁ ≠ b₂) : Survives (tok b₁) (tok b₂) :=
  ⟨tok_ne_nil b₁, tok_ne_nil b₂,
    not_occurs_tok_tok b₂ b₁ h₂ h₁ (Ne.symm hne),
    not_occurs_tok_tok b₁ b₂ h₁ h₂ hne,
    tok_suffix_not_lead b₁ b₂ h₁,
    tok_suffix_not_lead b₂ b₁ h₂⟩

/-! ## Decimal rendering lemmas -/

theorem digitChars_no_brace : ∀ c ∈ digitChars, c ≠ '\x7b' ∧ c ≠ '\x7d' := by decide

theorem dChar_mem (n : Nat) : dChar n ∈ digitChars := by
  by_cases h : n < 10
  · interval_cases n <;> decide
  · have hlen : digitChars.length ≤ n := by simp [digitChars]; omega
    rw [dChar, List.getD_eq_default _ _ hlen]
    decide

theorem dChar_no_brace (n : Nat) : dChar n ≠ '\x7b' ∧ dChar n ≠ '\x7d' :=
  digitChars_no_brace _ (dChar_mem n)

theorem dVal_dChar (n : Nat) (h : n < 10) : dVal (dChar n) = n := by
  interval_cases n <;> decide

theorem evalDs_append (l : Str) (c : Char) : evalDs (l ++ [c]) = 10 * evalDs l + dVal c := by
  simp [evalDs, List.foldl_append]

theorem evalDs_dsAux : ∀ f n, n < 10 ^ f → evalDs (dsAux f n) = n
  | 0, n, h => by
    have hn : n = 0 := by simpa using Nat.lt_one_iff.mp (by simpa using h)
    subst hn
    rfl
  | f + 1, n, h => by
    rw [dsAux]
    split
    · rename_i h10
      simp [evalDs, dVal_dChar n h10]
    · rename_i h10
      have hdiv : n / 10 < 10 ^ f := by
        rw [Nat.div_lt_iff_lt_mul (by norm_num)]
        calc n < 10 ^ (f + 1) := h
          _ = 10 ^ f * 10 := pow_succ 10 f
      rw [evalDs_append, evalDs_dsAux f (n / 10) hdiv,
        dVal_dChar _ (Nat.mod_lt n (by norm_num))]
      exact Nat.div_add_mod n 10

theorem evalDs_ds (n : Nat) : evalDs (ds n) = n := by
  apply evalDs_dsAux (n + 1) n
  have h1 : n < 10 ^ n := Nat.lt_pow_self (by norm_num) n
  exact lt_of_lt_of_le h1 (Nat.pow_le_pow_right (by norm_num) (Nat.le_succ n))

theorem ds_inj (a b : Nat) (h : ds a = ds b) : a = b := by
  rw [← evalDs_ds a, ← evalDs_ds b, h]

theorem dsAux_no_brace : ∀ f n, ∀ c ∈ dsAux f n, c ≠ '\x7b' ∧ c ≠ '\x7d'
  | 0, _ => by simp [dsAux]
  | f + 1, n => by
    rw [dsAux]
    split
    · intro c hc
      have : c = dChar n := by simpa using hc
      exact this ▸ dChar_no_brace n
    · intro c hc
      rcases List.mem_append.mp hc with hin | hin
      · exact dsAux_no_brace f (n / 10) c hin
      · have : c = dChar (n % 10) := by simpa using hin
        exact this ▸ dChar_no_brace (n % 10)

theorem ds_no_brace (n : Nat) : ∀ c ∈ ds n, c ≠ '\x7b' ∧ c ≠ '\x7d' :=
  dsAux_no_brace (n + 1) n

/-! ## Substitution-table lemmas -/

theorem hymnToken_eq (i : Nat) : hymnToken i = tok ('찬' :: '송' :: ds i) := rfl

theorem hymnBody_braceFree (i : Nat) : braceFree ('찬' :: '송' :: ds i) := by
  intro c hc
  rcases List.mem_cons.mp hc with rfl | hc'
  · decide
  · rcases List.mem_cons.mp hc' with rfl | hc''
    · decide
    · exact ds_no_brace i c hc''

theorem hymnToken_inj (i j : Nat) (h : hymnToken i = hymnToken j) : i = j := by
  rw [hymnToken_eq, hymnToken_eq] at h
  have hb := tok_inj _ _ h
  have hds : ds i = ds j := by
    injection hb with _ h1
    injection h1 with _ h2
  exact ds_inj i j hds

theorem body_sermon_ne (i : Nat) : "설교제목".toList ≠ '찬' :: '송' :: ds i := by
  intro h
  injection h with h1 _
  exact absurd h1 (by decide)

theorem body_preacher_ne (i : Nat) : "설교자".toList ≠ '찬' :: '송' :: ds i := by
  intro h
  injection h with h1 _
  exact absurd h1 (by decide)

theorem body_prayer_ne (i : Nat) : "기도자".toList ≠ '찬' :: '송' :: ds i := by
  intro h
  injection h with h1 _
  exact absurd h1 (by decide)

theorem body_ref_ne (i : Nat) : "성경본문".toList ≠ '찬' :: '송' :: ds i := by
  intro h
  injection h with h1 _
  exact absurd h1 (by decide)

theorem body_text_ne (i : Nat) : "말씀내용".toList ≠ '찬' :: '송' :: ds i := by
  intro h
  injection h with h1 _
  exact absurd h1 (by decide)

theorem hymnBody_inj (i j : Nat) (h : ('찬' :: '송' :: ds i) = ('찬' :: '송' :: ds j)) :
    i = j := by
  have hds : ds i = ds j := by
    injection h with _ h1
    injection h1 with _ h2
  exact ds_inj i j hds

theorem mem_hymnPairs_iff :
    ∀ (hs : List PyVal) (n i : Nat) (v : PyVal),
      ((hymnToken i, v) ∈ hymnPairs n hs ↔ ∃ j, i = n + j ∧ hs[j]? = some v)
  | [], n, i, v => by simp [hymnPairs]
  | h :: hs, n, i, v => by
    simp only [hymnPairs, List.mem_cons]
    constructor
    · rintro (heq | hmem)
      · have h1 : hymnToken i = hymnToken n := congrArg Prod.fst heq
        have h2 : v = h := congrArg Prod.snd heq
        exact ⟨0, by simp [hymnToken_inj i n h1], by simp [h2.symm]⟩
      · obtain ⟨j, hj1, hj2⟩ := (mem_hymnPairs_iff hs (n + 1) i v).mp hmem
        exact ⟨j + 1, by omega, by simpa using hj2⟩
    · rintro ⟨j, rfl, hj⟩
      match j, hj with
      | 0, hj =>
        left
        have hv : h = v := by simpa using hj
        simp [hv]
      | j + 1, hj =>
        right
        exact (mem_hymnPairs_iff hs (n + 1) (n + (j + 1)) v).mpr ⟨j, by omega, by simpa using hj⟩

theorem hymnPairs_keys :
    ∀ (hs : List PyVal) (n : Nat) (kv : Str × PyVal),
      kv ∈ hymnPairs n hs → ∃ j, j < hs.length ∧ kv.1 = hymnToken (n + j)
  | [], _, _, h => by simp [hymnPairs] at h
  | h :: hs, n, kv, hmem => by
    rcases List.mem_cons.mp hmem with rfl | hmem'
    · exact ⟨0, by simp, by simp⟩
    · obtain ⟨j, hj, hkey⟩ := hymnPairs_keys hs (n + 1) kv hmem'
      exact ⟨j + 1, by simpa using Nat.succ_lt_succ hj, by rw [hkey]; congr 1; omega⟩

theorem replacements_key_shape (d : JuboData) (kv : Str × PyVal)
    (h : kv ∈ replacements d) :
    kv.1 = tok "설교제목".toList ∨ kv.1 = tok "설교자".toList ∨
      kv.1 = tok "기도자".toList ∨ kv.1 = tok "성경본문".toList ∨
      kv.1 = tok "말씀내용".toList ∨
      ∃ j, j < (d.hymn_list.getD []).length ∧ kv.1 = hymnToken (1 + j) := by
  rcases List.mem_append.mp h with hbase | hhymn
  · simp only [List.mem_cons, List.not_mem_nil, or_false] at hbase
    rcases hbase with rfl | rfl | rfl | rfl | rfl
    · exact Or.inl rfl
    · exact Or.inr (Or.inl rfl)
    · exact Or.inr (Or.inr (Or.inl rfl))
    · exact Or.inr (Or.inr (Or.inr (Or.inl rfl)))
    · exact Or.inr (Or.inr (Or.inr (Or.inr (Or.inl rfl))))
  · exact Or.inr (Or.inr (Or.inr (Or.inr (Or.inr (hymnPairs_keys _ 1 kv hhymn)))))

theorem replacements_keys_ne_nil (d : JuboData) (kv : Str × PyVal)
    (h : kv ∈ replacements d) : kv.1 ≠ [] := by
  rcases replacements_key_shape d kv h with h1 | h1 | h1 | h1 | h1 | ⟨j, _, h1⟩ <;>
    rw [h1]
  · exact tok_ne_nil _
  · exact tok_ne_nil _
  · exact tok_ne_nil _
  · exact tok_ne_nil _
  · exact tok_ne_nil _
  · rw [hymnToken_eq]; exact tok_ne_nil _

/-! ## Document-traversal lemmas -/

theorem fillRun_id (table : List (Str × PyVal)) (r : Run)
    (h : ∀ kv ∈ table, occursB kv.1 r.text = false) : fillRun table r = r := by
  cases r with
  | mk t f => simp [fillRun, fillRunText_id _ _ h]

theorem fillParagraph_id (table : List (Str × PyVal)) (pa : Paragraph)
    (h : ∀ r ∈ pa.runs, ∀ kv ∈ table, occursB kv.1 r.text = false) :
    fillParagraph table pa = pa := by
  cases pa with
  | mk runs =>
    simp only [fillParagraph]
    congr 1
    rw [ List.map_congr_left fun r hr => fillRun_id table r (h r hr)]
    exact List.map_id' runs

theorem fillShape_id (table : List (Str × PyVal)) (sh : Shape)
    (h : ∀ pa ∈ sh.paragraphs, ∀ r ∈ pa.runs, ∀ kv ∈ table, occursB kv.1 r.text = false) :
    fillShape table sh = sh := by
  cases sh with
  | mk htf paras =>
    simp only [fillShape]
    split
    · congr 1
      rw [ List.map_congr_left fun pa hpa => fillParagraph_id table pa (h pa hpa)]
      exact List.map_id' paras
    · rfl

theorem fillSlide_id (table : List (Str × PyVal)) (sl : Slide)
    (h : ∀ sh ∈ sl.shapes, ∀ pa ∈ sh.paragraphs, ∀ r ∈ pa.runs,
      ∀ kv ∈ table, occursB kv.1 r.text = false) :
    fillSlide table sl = sl := by
  cases sl with
  | mk shapes =>
    simp only [fillSlide]
    congr 1
    rw [ List.map_congr_left fun sh hsh => fillShape_id table sh (h sh hsh)]
    exact List.map_id' shapes

theorem skeleton_fillShape (table : List (Str × PyVal)) (sh : Shape) :
    ((fillShape table sh).has_text_frame,
        (fillShape table sh).paragraphs.map fun pa => pa.runs.map Run.fmt) =
      (sh.has_text_frame, sh.paragraphs.map fun pa => pa.runs.map Run.fmt) := by
  simp only [fillShape]
  split
  · simp [fillParagraph, fillRun, List.map_map, Function.comp]
  · rfl

/-! ## Claim theorems -/

/-- C1: for every entry `(k, v)` of the substitution table built from the
record, applying that entry to a run whose current text contains `k`
replaces every (left-to-right, non-overlapping) occurrence of `k` by the
value coerced to string — the result is the `k`-split of the text rejoined
with `safe_value v`, and no piece of that split still contains `k`; the
`None` value coerces to the empty string; and a run whose text contains no
table token is left unchanged by the whole inner loop. -/
theorem fill_token_step_replaces_all (d : JuboData) (s k : Str) (v : PyVal)
    (hkv : (k, v) ∈ replacements d) :
    (occursB k s = true →
        applyOne s (k, v) = List.intercalate (safe_value v) (pySplit k s) ∧
          ∀ p ∈ pySplit k s, ¬ Occurs k p) ∧
      safe_value PyVal.vNone = [] ∧
      ((∀ kv ∈ replacements d, occursB kv.1 s = false) →
        fillRunText (replacements d) s = s) := by
  refine ⟨fun hocc => ⟨?_, ?_⟩, rfl, fillRunText_id _ _⟩
  · simp only [applyOne, hocc, if_pos]
    exact pyReplace_eq_intercalate k (safe_value v) s
  · exact pySplit_pieces_free k (replacements_keys_ne_nil d (k, v) hkv) s

/-- Witness for C1 at a concrete record and run: the preacher token occurs
twice in the run and each occurrence is replaced by the preacher value. -/
theorem fill_token_step_replaces_all_witness :
    ("\x7b\x7b설교자\x7d\x7d".toList, PyVal.vStr "김철수".toList) ∈ replacements wData1 ∧
      occursB "\x7b\x7b설교자\x7d\x7d".toList wRun1 = true ∧
      applyOne wRun1 ("\x7b\x7b설교자\x7d\x7d".toList, PyVal.vStr "김철수".toList) =
        List.intercalate (safe_value (PyVal.vStr "김철수".toList))
          (pySplit "\x7b\x7b설교자\x7d\x7d".toList wRun1) :=
  ⟨by decide, by decide,
    ((fill_token_step_replaces_all wData1 wRun1 _ _ (by decide)).1 (by decide)).1⟩

/-- C2: for a 1-based position `i`, the hymn token is a key of the
substitution table exactly when `i` is at most the hymn count, and it is
mapped to the hymn at position `i`; when `i` exceeds the hymn count, any
run text containing the token still contains it verbatim after the whole
substitution loop. -/
theorem hymn_token_replacement_iff (d : JuboData) (i : Nat) (hi : 1 ≤ i) :
    (∀ v, ((hymnToken i, v) ∈ replacements d ↔ (d.hymn_list.getD [])[i - 1]? = some v)) ∧
      ((d.hymn_list.getD []).length < i →
        (∀ s, Occurs (hymnToken i) s → Occurs (hymnToken i) (fillRunText (replacements d) s)) ∧
        ∀ prs : Pres, ∀ sl ∈ prs.slides, ∀ sh ∈ sl.shapes, ∀ pa ∈ sh.paragraphs,
          ∀ r ∈ pa.runs, Occurs (hymnToken i) r.text →
            ∃ sl' ∈ (fill_ppt_text prs d).slides, ∃ sh' ∈ sl'.shapes,
              ∃ pa' ∈ sh'.paragraphs, ∃ r' ∈ pa'.runs, Occurs (hymnToken i) r'.text) := by
  have hrun : (d.hymn_list.getD []).length < i →
      ∀ s, Occurs (hymnToken i) s → Occurs (hymnToken i) (fillRunText (replacements d) s) := by
    intro hlen s
    apply fillRunText_survives
    intro kv hkv
    rcases replacements_key_shape d kv hkv with h1 | h1 | h1 | h1 | h1 | ⟨j, hj, h1⟩
    · rw [h1, hymnToken_eq]
      exact survives_tok _ _ (by decide) (hymnBody_braceFree i) (body_sermon_ne i)
    · rw [h1, hymnToken_eq]
      exact survives_tok _ _ (by decide) (hymnBody_braceFree i) (body_preacher_ne i)
    · rw [h1, hymnToken_eq]
      exact survives_tok _ _ (by decide) (hymnBody_braceFree i) (body_prayer_ne i)
    · rw [h1, hymnToken_eq]
      exact survives_tok _ _ (by decide) (hymnBody_braceFree i) (body_ref_ne i)
    · rw [h1, hymnToken_eq]
      exact survives_tok _ _ (by decide) (hymnBody_braceFree i) (body_text_ne i)
    · rw [h1, hymnToken_eq, hymnToken_eq]
      apply survives_tok _ _ (hymnBody_braceFree (1 + j)) (hymnBody_braceFree i)
      intro hbe
      have := hymnBody_inj (1 + j) i hbe
      omega
  constructor
  · intro v
    constructor
    · intro h
      rcases List.mem_append.mp h with hbase | hhymn
      · exfalso
        simp only [List.mem_cons, List.not_mem_nil, or_false] at hbase
        rcases hbase with heq | heq | heq | heq | heq
        · exact body_sermon_ne i
            (tok_inj ('찬' :: '송' :: ds i) "설교제목".toList (congrArg Prod.fst heq)).symm
        · exact body_preacher_ne i
            (tok_inj ('찬' :: '송' :: ds i) "설교자".toList (congrArg Prod.fst heq)).symm
        · exact body_prayer_ne i
            (tok_inj ('찬' :: '송' :: ds i) "기도자".toList (congrArg Prod.fst heq)).symm
        · exact body_ref_ne i
            (tok_inj ('찬' :: '송' :: ds i) "성경본문".toList (congrArg Prod.fst heq)).symm
        · exact body_text_ne i
            (tok_inj ('찬' :: '송' :: ds i) "말씀내용".toList (congrArg Prod.fst heq)).symm
      · obtain ⟨j, hj1, hj2⟩ := (mem_hymnPairs_iff _ 1 i v).mp hhymn
        have hj : i - 1 = j := by omega
        rw [hj]
        exact hj2
    · intro hv
      apply List.mem_append.mpr
      right
      exact (mem_hymnPairs_iff _ 1 i v).mpr ⟨i - 1, by omega, hv⟩
  · intro hlen
    refine ⟨hrun hlen, ?_⟩
    intro prs sl hsl sh hsh pa hpa r hr hocc
    refine ⟨fillSlide (replacements d) sl, List.mem_map_of_mem _ hsl,
      fillShape (replacements d) sh, List.mem_map_of_mem _ hsh, ?_⟩
    by_cases hstf : sh.has_text_frame
    · refine ⟨fillParagraph (replacements d) pa, ?_, fillRun (replacements d) r, ?_, ?_⟩
      · simp only [fillShape, if_pos hstf]
        exact List.mem_map_of_mem _ hpa
      · simp only [fillParagraph]
        exact List.mem_map_of_mem _ hr
      · exact hrun hlen r.text hocc
    · refine ⟨pa, ?_, r, hr, hocc⟩
      simp only [fillShape, if_neg hstf]
      exact hpa

/-- Witness for C2 at a concrete record with two hymns and position 3. -/
theorem hymn_token_replacement_iff_witness :
    1 ≤ 3 ∧
      ((∀ v, ((hymnToken 3, v) ∈ replacements wData2 ↔
          (wData2.hymn_list.getD [])[3 - 1]? = some v)) ∧
        ((wData2.hymn_list.getD []).length < 3 →
          (∀ s, Occurs (hymnToken 3) s →
            Occurs (hymnToken 3) (fillRunText (replacements wData2) s)) ∧
          ∀ prs : Pres, ∀ sl ∈ prs.slides, ∀ sh ∈ sl.shapes, ∀ pa ∈ sh.paragraphs,
            ∀ r ∈ pa.runs, Occurs (hymnToken 3) r.text →
              ∃ sl' ∈ (fill_ppt_text prs wData2).slides, ∃ sh' ∈ sl'.shapes,
                ∃ pa' ∈ sh'.paragraphs, ∃ r' ∈ pa'.runs, Occurs (hymnToken 3) r'.text)) :=
  ⟨by decide, hymn_token_replacement_iff wData2 3 (by decide)⟩

/-- C3 counterexample: an analyze call that succeeds on a reply whose JSON
object contains only the `preacher` key produces a record whose
`sermon_title` field is absent — the claim that every field is present
(defaulted at construction) is false; `analyze_jubo_deep` returns the
parsed object verbatim. -/
theorem analyze_missing_field_cex :
    (analyze_jubo_deep cexEnv).errorShown = false ∧
      (analyze_jubo_deep cexEnv).result = PyObj.objDict cexData ∧
      cexData.sermon_title = none := by
  refine ⟨?_, ?_, rfl⟩ <;> decide

/-- C3 (amended): a successful analyze call returns the parsed JSON object
unchanged — fields the reply omits are absent from the record — and the
empty-string defaults are applied at each consumer access: a missing field
enters the substitution table as the empty string, and a missing hymn list
contributes no hymn entries. -/
theorem analyze_returns_parse_verbatim (env : ExtEnv) (r : Str) (d : JuboData)
    (hu : env.upload = .ok ()) (hg : env.generate = .ok r)
    (hl : env.loads (stripFences r) = .ok (.objDict d)) :
    (analyze_jubo_deep env).result = PyObj.objDict d ∧
      (analyze_jubo_deep env).errorShown = false ∧
      (d.sermon_title = none →
        ("\x7b\x7b설교제목\x7d\x7d".toList, PyVal.vStr []) ∈ replacements d) ∧
      (d.preacher = none →
        ("\x7b\x7b설교자\x7d\x7d".toList, PyVal.vStr []) ∈ replacements d) ∧
      (d.prayer_person = none →
        ("\x7b\x7b기도자\x7d\x7d".toList, PyVal.vStr []) ∈ replacements d) ∧
      (d.bible_ref = none →
        ("\x7b\x7b성경본문\x7d\x7d".toList, PyVal.vStr []) ∈ replacements d) ∧
      (d.bible_text = none →
        ("\x7b\x7b말씀내용\x7d\x7d".toList, PyVal.vStr []) ∈ replacements d) ∧
      (d.hymn_list = none → hymnPairs 1 (d.hymn_list.getD []) = []) := by
  refine ⟨?_, ?_, ?_, ?_, ?_, ?_, ?_, ?_⟩
  · simp [analyze_jubo_deep, hu, hg, hl]
  · simp [analyze_jubo_deep, hu, hg, hl]
  · intro hf; simp [replacements, hf]
  · intro hf; simp [replacements, hf]
  · intro hf; simp [replacements, hf]
  · intro hf; simp [replacements, hf]
  · intro hf; simp [replacements, hf]
  · intro hf; simp [hf, hymnPairs]

/-- Witness for the amended C3 at the concrete counterexample environment. -/
theorem analyze_returns_parse_verbatim_witness :
    cexEnv.loads (stripFences cexReply) = Outcome.ok (PyObj.objDict cexData) ∧
      (analyze_jubo_deep cexEnv).result = PyObj.objDict cexData ∧
      (cexData.sermon_title = none →
        ("\x7b\x7b설교제목\x7d\x7d".toList, PyVal.vStr []) ∈ replacements cexData) :=
  ⟨by decide,
    (analyze_returns_parse_verbatim cexEnv cexReply cexData rfl rfl (by decide)).1,
    (analyze_returns_parse_verbatim cexEnv cexReply cexData rfl rfl (by decide)).2.2.1⟩

/-- C4: the error branch of `analyze_jubo_deep` runs exactly when the
upload raises, the generation call raises, or `json.loads` raises on the
fence-stripped reply; in every such case the call returns `None` and the
stored session record is left untouched. -/
theorem analyze_failure_characterization (env : ExtEnv) (prev : Option PyObj) :
    ((analyze_jubo_deep env).errorShown = true ↔
        env.upload = .exn ∨ (env.upload = .ok () ∧ env.generate = .exn) ∨
          (∃ r, env.upload = .ok () ∧ env.generate = .ok r ∧
            env.loads (stripFences r) = .exn)) ∧
      ((analyze_jubo_deep env).errorShown = true →
        (analyze_jubo_deep env).result = PyObj.objNone ∧
          sessionAfterAnalyze prev env = prev) := by
  obtain ⟨up, gen, lds⟩ := env
  cases up with
  | exn => simp [analyze_jubo_deep, sessionAfterAnalyze, pyTruthy]
  | ok u =>
    cases u
    cases gen with
    | exn => simp [analyze_jubo_deep, sessionAfterAnalyze, pyTruthy]
    | ok r =>
      cases hres : lds (stripFences r) with
      | ok obj => simp [analyze_jubo_deep, sessionAfterAnalyze, hres]
      | exn => simp [analyze_jubo_deep, sessionAfterAnalyze, pyTruthy, hres]

/-- Witness for C4 at a concrete environment whose upload raises. -/
theorem analyze_failure_characterization_witness :
    ((analyze_jubo_deep envUploadFail).errorShown = true ↔
        envUploadFail.upload = .exn ∨
          (envUploadFail.upload = .ok () ∧ envUploadFail.generate = .exn) ∨
          (∃ r, envUploadFail.upload = .ok () ∧ envUploadFail.generate = .ok r ∧
            envUploadFail.loads (stripFences r) = .exn)) ∧
      ((analyze_jubo_deep envUploadFail).errorShown = true →
        (analyze_jubo_deep envUploadFail).result = PyObj.objNone ∧
          sessionAfterAnalyze none envUploadFail = none) :=
  analyze_failure_characterization envUploadFail none

/-- C5: when no run of the template contains any token of the substitution
table, the fill pass returns the template unchanged. -/
theorem fill_no_token_template_id (d : JuboData) (prs : Pres)
    (h : ∀ sl ∈ prs.slides, ∀ sh ∈ sl.shapes, ∀ pa ∈ sh.paragraphs, ∀ r ∈ pa.runs,
      ∀ kv ∈ replacements d, occursB kv.1 r.text = false) :
    fill_ppt_text prs d = prs := by
  cases prs with
  | mk slides =>
    simp only [fill_ppt_text]
    congr 1
    rw [ List.map_congr_left fun sl hsl => fillSlide_id (replacements d) sl (h sl hsl)]
    exact List.map_id' slides

/-- Witness for C5 at a concrete token-free template. -/
theorem fill_no_token_template_id_witness :
    (∀ sl ∈ wPres.slides, ∀ sh ∈ sl.shapes, ∀ pa ∈ sh.paragraphs, ∀ r ∈ pa.runs,
      ∀ kv ∈ replacements wData1, occursB kv.1 r.text = false) ∧
      fill_ppt_text wPres wData1 = wPres :=
  ⟨by decide, fill_no_token_template_id wData1 wPres (by decide)⟩

/-- C6: the fill pass preserves the document structure exactly — the slide
count, and per slide the shapes with their text-frame flags, paragraph
counts, run counts and run formatting payloads are unchanged; only run
text can differ. -/
theorem fill_preserves_structure (prs : Pres) (d : JuboData) :
    (fill_ppt_text prs d).slides.length = prs.slides.length ∧
      skeleton (fill_ppt_text prs d) = skeleton prs := by
  constructor
  · simp [fill_ppt_text]
  · simp only [skeleton, fill_ppt_text, List.map_map]
    apply List.map_congr_left
    intro sl _
    simp only [Function.comp, fillSlide, List.map_map]
    apply List.map_congr_left
    intro sh _
    exact skeleton_fillShape (replacements d) sh

/-- C7: on every execution path of `analyze_jubo_deep` — success, parse
failure, or remote-call failure — the temporary file no longer exists when
the function returns (the `finally` block deletes it). -/
theorem analyze_tmp_file_deleted (env : ExtEnv) :
    (analyze_jubo_deep env).tmpLeft = false := by
  simp only [analyze_jubo_deep]
  split <;> rfl

/-- C8: saving a credential and loading returns exactly that credential;
saving twice returns the newest value; loading with no saved credential
returns the empty string. -/
theorem api_key_save_load (k k2 : Str) (fs fs2 : ConfigState) :
    load_api_key (save_api_key k fs) = .ok (.vStr k) ∧
      load_api_key (save_api_key k2 (save_api_key k fs2)) = .ok (.vStr k2) ∧
      load_api_key .absent = .ok (.vStr []) :=
  ⟨rfl, rfl, rfl⟩

/-- C9: substitution is sequential over the table order, not simultaneous:
with a record whose sermon-title value is the literal preacher token, a run
consisting of the sermon-title token ends up holding the preacher value —
the token inserted by the first substitution is replaced by the later
entry. -/
theorem fill_sequential_overwrite :
    fillRunText (replacements seqData) "\x7b\x7b설교제목\x7d\x7d".toList = "김철수".toList ∧
      occursB "김철수".toList
        (fillRunText (replacements seqData) "\x7b\x7b설교제목\x7d\x7d".toList) = true := by
  constructor <;> decide

/-- C10 counterexample: the config file can exist as a JSON object whose
`api_key` key is present and maps to the empty string; `load_api_key` then
returns the empty string even though the file is neither absent nor
lacking the key — refuting the claim's "only when" clause. -/
theorem load_api_key_empty_value_cex :
    load_api_key (ConfigState.obj (some (PyVal.vStr []))) = Outcome.ok (PyVal.vStr []) ∧
      ConfigState.obj (some (PyVal.vStr [])) ≠ ConfigState.absent ∧
      some (PyVal.vStr []) ≠ (none : Option PyVal) :=
  ⟨rfl, by decide, by decide⟩

/-- C10 (amended): `load_api_key` raises an unhandled exception when the
file exists without syntactically valid JSON (and likewise when the JSON
is not an object); it returns the empty string when the file is absent or
the object lacks the `api_key` key; when the key is present it returns the
stored value — which may itself be the empty string. -/
theorem load_api_key_totality (v : PyVal) :
    load_api_key .invalid = .exn ∧ load_api_key .nonObj = .exn ∧
      load_api_key .absent = .ok (.vStr []) ∧
      load_api_key (.obj none) = .ok (.vStr []) ∧
      load_api_key (.obj (some v)) = .ok v :=
  ⟨rfl, rfl, rfl, rfl, rfl⟩

end Worship
